import Mathlib

/-!
Verification of the core scoring logic of a graph-based recommendation
service (friend suggestions by mutual connections, "people you may know"
by Pearson correlation on feature vectors, job matching by cosine
similarity on embeddings, plus a feature-to-embedding projection and a
bounded shortest-path lookup).

Numeric vectors are modelled as lists of real numbers; the floating-point
arithmetic of the source is modelled by exact real arithmetic.
-/

/-! ## Vector projection (src/app/embedding.py and version2 variant) -/

/-- Euclidean (L2) norm of a vector, as computed by `np.linalg.norm`. -/
noncomputable def l2norm (v : List ℝ) : ℝ :=
  Real.sqrt (v.map (fun x => x ^ 2)).sum

/-- `project_features_to_embedding` from `src/app/embedding.py`:
empty input yields the all-zero vector of length `dim`; otherwise the
vector is L2-normalized when its norm is positive, then truncated to
`dim` when at least that long, else right-padded with zeros. -/
noncomputable def project_features_to_embedding (features : List ℝ) (dim : Nat) : List ℝ :=
  if features.length = 0 then List.replicate dim 0
  else
    let vec := if 0 < l2norm features then features.map (fun x => x / l2norm features)
      else features
    if dim ≤ vec.length then vec.take dim
    else vec ++ List.replicate (dim - vec.length) 0

/-- `to_numeric_vector` from
`src/version2_basic_graph_embeddings/app/embedding.py`: empty input
yields the all-zero vector; otherwise the vector is first truncated or
zero-padded to `dim`, and then L2-normalized when the (adjusted)
vector's norm is positive. -/
noncomputable def to_numeric_vector (features : List ℝ) (dim : Nat) : List ℝ :=
  if features.length = 0 then List.replicate dim 0
  else
    let vec := if dim ≤ features.length then features.take dim
      else features ++ List.replicate (dim - features.length) 0
    if 0 < l2norm vec then vec.map (fun x => x / l2norm vec) else vec

/-! ## Descending sort by a key (models `list.sort(key=..., reverse=True)`
and Cypher `ORDER BY ... DESC`) -/

/-- Insert an element into a list that is sorted by `key` descending. -/
def insDesc {α : Type*} {β : Type*} [LinearOrder β] (key : α → β) (x : α) : List α → List α
  | [] => [x]
  | y :: ys => if key y ≤ key x then x :: y :: ys else y :: insDesc key x ys

/-- Sort a list by `key` in descending order (insertion sort). -/
def sortDesc {α : Type*} {β : Type*} [LinearOrder β] (key : α → β) : List α → List α
  | [] => []
  | x :: xs => insDesc key x (sortDesc key xs)

/-! ## Pearson correlation (src/app/recommendation.py, `pearson_correlation`) -/

/-- Arithmetic mean of a list (`np.mean`); `0` for the empty list. -/
noncomputable def listMean (v : List ℝ) : ℝ := v.sum / v.length

/-- The vector recentered around its mean. -/
noncomputable def centered (v : List ℝ) : List ℝ := v.map (fun x => x - listMean v)

/-- Sum of squared deviations from the mean (variance up to the constant
`1 / (n - 1)` factor, which cancels in the correlation coefficient). -/
noncomputable def varSum (v : List ℝ) : ℝ := ((centered v).map (fun x => x ^ 2)).sum

/-- Sum of products of deviations (covariance up to the same constant). -/
noncomputable def covSum (a b : List ℝ) : ℝ :=
  (((centered a).zip (centered b)).map (fun p => p.1 * p.2)).sum

/-- The off-diagonal entry of `np.corrcoef(a, b)`: covariance divided by
the product of standard deviations (the shared `1 / (n - 1)` factors
cancel). -/
noncomputable def corrcoef (a b : List ℝ) : ℝ :=
  covSum a b / (Real.sqrt (varSum a) * Real.sqrt (varSum b))

/-- `np.all(v == v[0])`: every entry equals the first one. -/
def allEq (v : List ℝ) : Prop := ∀ x ∈ v, x = v.headI

open Classical in
/-- `pearson_correlation` from `src/app/recommendation.py`: raises
`ValueError` (modelled as `Except.error`) on size mismatch or empty
input, returns `0.0` when either vector is constant, and otherwise the
`np.corrcoef` coefficient. -/
noncomputable def pearson_correlation (a b : List ℝ) : Except String ℝ :=
  if a.length ≠ b.length ∨ a.length = 0 then
    Except.error "Vectors must be non-empty and of the same size"
  else if allEq a ∨ allEq b then Except.ok 0
  else Except.ok (corrcoef a b)

/-! ## Graph store model

The Neo4j store is modelled as in-memory lists: `:User` nodes with their
`features` and `embedding` properties, `:Job` nodes with their
`embedding`, and the directed `KNOWS` edge list. Cypher point lookups
(`MATCH (u:User {id: $id}) ... result.single()`) become `List.find?`,
and candidate scans become list filters. -/

structure UserNode where
  id : Nat
  name : Option String
  features : Option (List ℝ)
  embedding : Option (List ℝ)

structure JobNode where
  job_id : String
  title : Option String
  company : Option String
  location : Option String
  normalized_salary : Option ℝ
  embedding : Option (List ℝ)

structure Store where
  users : List UserNode
  jobs : List JobNode
  knows : List (Nat × Nat)

/-! ## Mutual-friend ranking (src/app/recommendation.py,
`get_friend_recommendations`)

The Cypher query matches `(u)-[:KNOWS]->(m)-[:KNOWS]->(rec)` with
`rec.id <> $user_id AND NOT (u)-[:KNOWS]->(rec)`, grouping by `rec` and
counting the distinct middle nodes `m` (the data model assumes no
parallel `KNOWS` edges, so matched paths correspond to distinct middle
nodes; neighbor lists are deduplicated accordingly). Result rows are
`(rec.id, mutuals)`; the inert `rec.name` display column is carried by
the transport layer and omitted here. -/

/-- Outgoing `KNOWS` neighbors of `u` (distinct). -/
def outNeighbors (g : List (Nat × Nat)) (u : Nat) : List Nat :=
  (g.filterMap (fun e => if e.1 = u then some e.2 else none)).dedup

/-- Number of distinct first-degree neighbors of `u` that know `c`. -/
def mutualCount (g : List (Nat × Nat)) (u c : Nat) : Nat :=
  ((outNeighbors g u).filter (fun m => decide (c ∈ outNeighbors g m))).length

/-- Second-degree candidates: neighbors of neighbors, excluding the
target itself and its direct neighbors. -/
def friendCandidates (g : List (Nat × Nat)) (u : Nat) : List Nat :=
  (((outNeighbors g u).flatMap (fun m => outNeighbors g m)).dedup).filter
    (fun c => decide (c ≠ u) && decide (c ∉ outNeighbors g u))

/-- `get_friend_recommendations`: score candidates by mutual count,
order by the count descending, return the first `lim`. -/
def get_friend_recommendations (g : List (Nat × Nat)) (u : Nat) (lim : Nat) :
    List (Nat × Nat) :=
  (sortDesc (fun p : Nat × Nat => p.2)
    ((friendCandidates g u).map (fun c => (c, mutualCount g u c)))).take lim

/-! ## "People you may know" (src/app/recommendation.py,
`get_people_you_may_know`) -/

/-- The candidate loop: for each candidate with features of the target's
length, compute the Pearson score and collect `(id, name, score)`.
A `ValueError` raised by `pearson_correlation` mid-loop propagates and
aborts the whole call (`Except.error`). The source's `np.isnan(score)`
guard never fires in the exact real-number model (the degenerate cases
already return the neutral value 0), so every computed score is kept. -/
noncomputable def pymkLoop (tf : List ℝ) :
    List UserNode → Except String (List (Nat × Option String × ℝ))
  | [] => Except.ok []
  | o :: rest =>
    match o.features with
    | none => pymkLoop tf rest
    | some f =>
      if f.length = tf.length then
        match pearson_correlation tf f with
        | Except.error e => Except.error e
        | Except.ok r => (pymkLoop tf rest).map (fun l => (o.id, o.name, r) :: l)
      else pymkLoop tf rest

/-- `get_people_you_may_know`: look up the target's features (missing
user or missing features yield the empty result), scan all other users
that have features, score them, sort by score descending, truncate. -/
noncomputable def get_people_you_may_know (s : Store) (uid : Nat) (lim : Nat) :
    Except String (List (Nat × Option String × ℝ)) :=
  match s.users.find? (fun u => u.id == uid) with
  | none => Except.ok []
  | some u =>
    match u.features with
    | none => Except.ok []
    | some tf =>
      (pymkLoop tf (s.users.filter (fun o => o.id != uid && o.features.isSome))).map
        (fun l => (sortDesc (fun t : Nat × Option String × ℝ => t.2.2) l).take lim)

/-! ## Job ranking (src/app/recommendation.py, `get_job_recommendations`) -/

/-- `np.dot` of two equal-length vectors. -/
noncomputable def dotList (a b : List ℝ) : ℝ :=
  ((a.zip b).map (fun p => p.1 * p.2)).sum

/-- One row of the job-recommendation result. -/
structure ScoredJob where
  job_id : String
  title : Option String
  company : Option String
  location : Option String
  normalized_salary : Option ℝ
  score : ℝ

/-- The per-job body of the scoring loop: skip jobs whose embedding
length differs from the user's or is zero, skip pairs whose cosine
denominator is zero, and skip non-positive scores. -/
noncomputable def scoreJob (uv : List ℝ) (j : JobNode) : Option ScoredJob :=
  match j.embedding with
  | none => none
  | some jv =>
    if jv.length ≠ uv.length ∨ jv.length = 0 then none
    else if l2norm uv * l2norm jv = 0 then none
    else if dotList uv jv / (l2norm uv * l2norm jv) ≤ 0 then none
    else some ⟨j.job_id, j.title, j.company, j.location, j.normalized_salary,
      dotList uv jv / (l2norm uv * l2norm jv)⟩

/-- `get_job_recommendations`: look up the target's embedding (missing
user, missing embedding, or empty embedding yield the empty result),
score every job that has an embedding, sort by score descending,
truncate to `lim`. -/
noncomputable def get_job_recommendations (s : Store) (uid : Nat) (lim : Nat) :
    List ScoredJob :=
  match s.users.find? (fun u => u.id == uid) with
  | none => []
  | some u =>
    match u.embedding with
    | none => []
    | some uv =>
      if uv.length = 0 then []
      else
        (sortDesc (fun sj : ScoredJob => sj.score)
          ((s.jobs.filter (fun j => j.embedding.isSome)).filterMap (scoreJob uv))).take lim

/-! ## Shortest path (src/app/main.py, `shortest_path`)

The endpoint runs the Cypher pattern
`p = shortestPath((a)-[:KNOWS*..6]-(b))` and returns the node-id
sequence of `p`, or a 404 not-found signal when no row matches.

Modelled from the spec: the path search itself is delegated to the
graph store's native capability (Neo4j `shortestPath`), which is not
part of this repository's sources; spec section 4.7 fixes its
semantics — traversal of `KNOWS` in either direction, a hard 6-hop cap,
the ordered id sequence from source to destination inclusive, and a
not-found signal when no such path exists. The model enumerates walks
of 0..6 hops in increasing hop order and picks the first one reaching
the destination. -/

/-- Undirected adjacency over the `KNOWS` edge list. -/
def adjacent (g : List (Nat × Nat)) (x y : Nat) : Prop :=
  (x, y) ∈ g ∨ (y, x) ∈ g

instance (g : List (Nat × Nat)) (x y : Nat) : Decidable (adjacent g x y) := by
  unfold adjacent
  infer_instance

/-- Nodes adjacent to `x` through an edge in either direction. -/
def adjNodes (g : List (Nat × Nat)) (x : Nat) : List Nat :=
  (g.filterMap (fun e =>
    if e.1 = x then some e.2 else if e.2 = x then some e.1 else none)).dedup

/-- Extend each walk (stored in reverse, head = current endpoint) by one
hop. -/
def stepPaths (g : List (Nat × Nat)) (ps : List (List Nat)) : List (List Nat) :=
  ps.flatMap (fun p =>
    match p with
    | [] => []
    | x :: _ => (adjNodes g x).map (fun y => y :: p))

/-- All reversed walks from `a` with exactly `k` hops. -/
def hopPaths (g : List (Nat × Nat)) (a : Nat) : Nat → List (List Nat)
  | 0 => [[a]]
  | k + 1 => stepPaths g (hopPaths g a k)

/-- The shortest-path lookup: the first walk (by increasing hop count,
capped at 6 hops) from `a` whose endpoint is `b`, as an id sequence from
`a` to `b`; `none` is the not-found signal. -/
def shortest_path (g : List (Nat × Nat)) (a b : Nat) : Option (List Nat) :=
  (((List.range 7).flatMap (hopPaths g a)).find?
    (fun p => p.head? == some b)).map List.reverse

/-- Example store: user 1 with features [1, 2] and user 2 with features
[2, 1], perfectly anti-correlated. -/
def negStore : Store :=
  ⟨[⟨1, none, some [(1 : ℝ), 2], none⟩, ⟨2, none, some [(2 : ℝ), 1], none⟩], [], []⟩

/-- Example store: a single user with neither features nor embedding. -/
def bareStore : Store := ⟨[⟨7, none, none, none⟩], [], []⟩

theorem insDesc_perm {α : Type*} {β : Type*} [LinearOrder β] (key : α → β) (x : α)
    (l : List α) : List.Perm (insDesc key x l) (x :: l) := by
  induction l with
  | nil => exact List.Perm.refl _
  | cons y ys ih =>
      rw [insDesc]
      by_cases hc : key y ≤ key x
      · rw [if_pos hc]
      · rw [if_neg hc]
        exact (ih.cons y).trans (List.Perm.swap x y ys)

theorem sortDesc_perm {α : Type*} {β : Type*} [LinearOrder β] (key : α → β)
    (l : List α) : List.Perm (sortDesc key l) l := by
  induction l with
  | nil => exact List.Perm.refl _
  | cons x xs ih =>
      rw [sortDesc]
      exact (insDesc_perm key x (sortDesc key xs)).trans (ih.cons x)

theorem insDesc_pairwise {α : Type*} {β : Type*} [LinearOrder β] (key : α → β) (x : α)
    {l : List α} (h : l.Pairwise (fun a b => key b ≤ key a)) :
    (insDesc key x l).Pairwise (fun a b => key b ≤ key a) := by
  induction l with
  | nil => simp [insDesc]
  | cons y ys ih =>
      rw [insDesc]
      rw [List.pairwise_cons] at h
      by_cases hc : key y ≤ key x
      · rw [if_pos hc]
        refine List.Pairwise.cons ?_ (List.Pairwise.cons h.1 h.2)
        intro z hz
        rcases List.mem_cons.mp hz with hz | hz
        · exact hz ▸ hc
        · exact le_trans (h.1 z hz) hc
      · rw [if_neg hc]
        refine List.Pairwise.cons ?_ (ih h.2)
        intro z hz
        rcases List.mem_cons.mp ((insDesc_perm key x ys).mem_iff.mp hz) with hz | hz
        · exact hz ▸ (le_of_not_le hc)
        · exact h.1 z hz

theorem sortDesc_pairwise {α : Type*} {β : Type*} [LinearOrder β] (key : α → β)
    (l : List α) : (sortDesc key l).Pairwise (fun a b => key b ≤ key a) := by
  induction l with
  | nil => simp [sortDesc]
  | cons x xs ih => exact insDesc_pairwise key x ih

/-- The projection always returns a vector of length exactly `dim`. -/
theorem project_length (v : List ℝ) (d : Nat) :
    (project_features_to_embedding v d).length = d := by
  rw [project_features_to_embedding]
  by_cases h0 : v.length = 0
  · rw [if_pos h0, List.length_replicate]
  · rw [if_neg h0]
    set vec := if 0 < l2norm v then v.map (fun x => x / l2norm v) else v with hvec
    by_cases hd : d ≤ vec.length
    · rw [if_pos hd, List.length_take]
      exact Nat.min_eq_left hd
    · rw [if_neg hd, List.length_append, List.length_replicate]
      exact Nat.add_sub_cancel' (Nat.le_of_lt (Nat.lt_of_not_le hd))

theorem sq_list_sum_nonneg (l : List ℝ) : 0 ≤ (l.map (fun x => x ^ 2)).sum := by
  refine List.sum_nonneg ?_
  intro x hx
  rcases List.mem_map.mp hx with ⟨y, _, rfl⟩
  exact sq_nonneg y

theorem sq_list_sum_eq_zero {l : List ℝ} (h : (l.map (fun x => x ^ 2)).sum = 0) :
    ∀ x ∈ l, x = 0 := by
  induction l with
  | nil => simp
  | cons y ys ih =>
      rw [List.map_cons, List.sum_cons] at h
      have h1 : 0 ≤ y ^ 2 := sq_nonneg y
      have h2 : 0 ≤ (ys.map (fun x => x ^ 2)).sum := sq_list_sum_nonneg ys
      have hy : y ^ 2 = 0 := by linarith
      have hs : (ys.map (fun x => x ^ 2)).sum = 0 := by linarith
      intro x hx
      rcases List.mem_cons.mp hx with hx | hx
      · subst hx
        exact (pow_eq_zero_iff (by norm_num : (2:ℕ) ≠ 0)).mp hy
      · exact ih hs x hx

theorem list_cauchy_schwarz (l : List (ℝ × ℝ)) :
    (l.map (fun p => p.1 * p.2)).sum ^ 2 ≤
      (l.map (fun p => p.1 ^ 2)).sum * (l.map (fun p => p.2 ^ 2)).sum := by
  induction l with
  | nil => simp
  | cons p l ih =>
      obtain ⟨x, y⟩ := p
      simp only [List.map_cons, List.sum_cons]
      set S := (l.map (fun p => p.1 * p.2)).sum with hS
      set A := (l.map (fun p => p.1 ^ 2)).sum with hA
      set B := (l.map (fun p => p.2 ^ 2)).sum with hB
      have hA0 : 0 ≤ A := by
        refine List.sum_nonneg ?_
        intro z hz
        rcases List.mem_map.mp hz with ⟨q, _, rfl⟩
        exact sq_nonneg _
      have hB0 : 0 ≤ B := by
        refine List.sum_nonneg ?_
        intro z hz
        rcases List.mem_map.mp hz with ⟨q, _, rfl⟩
        exact sq_nonneg _
      have habs : |S| ≤ Real.sqrt A * Real.sqrt B := by
        rw [← Real.sqrt_sq_eq_abs, ← Real.sqrt_mul hA0]
        exact Real.sqrt_le_sqrt ih
      have h2 : 2 * (|x| * Real.sqrt B) * (|y| * Real.sqrt A) ≤
          (|x| * Real.sqrt B) ^ 2 + (|y| * Real.sqrt A) ^ 2 := two_mul_le_add_sq _ _
      have h3 : (|x| * Real.sqrt B) ^ 2 = x ^ 2 * B := by
        rw [mul_pow, sq_abs, Real.sq_sqrt hB0]
      have h4 : (|y| * Real.sqrt A) ^ 2 = y ^ 2 * A := by
        rw [mul_pow, sq_abs, Real.sq_sqrt hA0]
      have h5 : 2 * (x * y) * S ≤ 2 * (|x| * |y|) * |S| := by
        calc 2 * (x * y) * S ≤ |2 * (x * y) * S| := le_abs_self _
          _ = 2 * (|x| * |y|) * |S| := by
              rw [abs_mul, abs_mul, abs_mul, abs_two]
      have h6 : 2 * (|x| * |y|) * |S| ≤ 2 * (|x| * |y|) * (Real.sqrt A * Real.sqrt B) := by
        refine mul_le_mul_of_nonneg_left habs ?_
        positivity
      have h7 : 2 * (|x| * |y|) * (Real.sqrt A * Real.sqrt B) =
          2 * (|x| * Real.sqrt B) * (|y| * Real.sqrt A) := by ring
      have hmain : 2 * (x * y) * S ≤ x ^ 2 * B + y ^ 2 * A := by
        rw [h3, h4] at h2
        linarith [h5, h6, h7 ▸ h2]
      nlinarith [hmain, ih]

theorem centered_length (v : List ℝ) : (centered v).length = v.length := by
  simp [centered]

theorem covSum_sq_le_varSum {a b : List ℝ} (h : a.length = b.length) :
    covSum a b ^ 2 ≤ varSum a * varSum b := by
  have hlen : (centered a).length = (centered b).length := by
    rw [centered_length, centered_length, h]
  have hcs := list_cauchy_schwarz ((centered a).zip (centered b))
  have hfst : (((centered a).zip (centered b)).map (fun p => p.1 ^ 2)).sum = varSum a := by
    have : (fun p : ℝ × ℝ => p.1 ^ 2) = (fun x : ℝ => x ^ 2) ∘ Prod.fst := rfl
    rw [varSum, this, ← List.map_map, List.map_fst_zip _ _ (le_of_eq hlen)]
  have hsnd : (((centered a).zip (centered b)).map (fun p => p.2 ^ 2)).sum = varSum b := by
    have : (fun p : ℝ × ℝ => p.2 ^ 2) = (fun x : ℝ => x ^ 2) ∘ Prod.snd := rfl
    rw [varSum, this, ← List.map_map, List.map_snd_zip _ _ (le_of_eq hlen.symm)]
  rw [hfst, hsnd] at hcs
  exact hcs

theorem varSum_nonneg (v : List ℝ) : 0 ≤ varSum v := sq_list_sum_nonneg _

theorem varSum_pos {v : List ℝ} (hv : v ≠ []) (h : ¬ allEq v) : 0 < varSum v := by
  rcases lt_or_eq_of_le (varSum_nonneg v) with hlt | heq
  · exact hlt
  · exfalso
    apply h
    have hc : ∀ x ∈ centered v, x = 0 := sq_list_sum_eq_zero heq.symm
    have hmean : ∀ x ∈ v, x = listMean v := by
      intro x hx
      have : x - listMean v ∈ centered v := List.mem_map.mpr ⟨x, hx, rfl⟩
      have := hc _ this
      linarith
    have hhead : v.headI ∈ v := by
      cases v with
      | nil => exact absurd rfl hv
      | cons y ys => exact List.mem_cons_self y ys
    intro x hx
    rw [hmean x hx, hmean _ hhead]

theorem corrcoef_abs_le {a b : List ℝ} (hlen : a.length = b.length)
    (hva : 0 < varSum a) (hvb : 0 < varSum b) : |corrcoef a b| ≤ 1 := by
  have hd : 0 < Real.sqrt (varSum a) * Real.sqrt (varSum b) :=
    mul_pos (Real.sqrt_pos.mpr hva) (Real.sqrt_pos.mpr hvb)
  rw [corrcoef, abs_div, abs_of_pos hd, div_le_one hd]
  calc |covSum a b| = Real.sqrt (covSum a b ^ 2) := (Real.sqrt_sq_eq_abs _).symm
    _ ≤ Real.sqrt (varSum a * varSum b) := Real.sqrt_le_sqrt (covSum_sq_le_varSum hlen)
    _ = Real.sqrt (varSum a) * Real.sqrt (varSum b) := Real.sqrt_mul (le_of_lt hva) _

/-- C2: `pearson_correlation` fails (raises `ValueError`, modelled as
`Except.error`) exactly when the two vectors differ in length or either
is empty; on every other input it returns a number without failing. -/
theorem pearson_correlation_error_iff (a b : List ℝ) :
    ((∃ e, pearson_correlation a b = Except.error e) ↔
      (a.length ≠ b.length ∨ a = [] ∨ b = [])) ∧
    ((∃ e, pearson_correlation a b = Except.error e) ∨
      (∃ r, pearson_correlation a b = Except.ok r)) := by
  constructor
  · rw [pearson_correlation]
    by_cases hc : a.length ≠ b.length ∨ a.length = 0
    · rw [if_pos hc]
      constructor
      · intro _
        rcases hc with hc | hc
        · exact Or.inl hc
        · exact Or.inr (Or.inl (List.length_eq_zero.mp hc))
      · intro _
        exact ⟨_, rfl⟩
    · rw [if_neg hc]
      push_neg at hc
      constructor
      · intro he
        rcases he with ⟨e, he⟩
        by_cases hd : allEq a ∨ allEq b
        · rw [if_pos hd] at he
          exact Except.noConfusion he
        · rw [if_neg hd] at he
          exact Except.noConfusion he
      · rintro (h | h | h)
        · exact absurd hc.1 h
        · exact absurd (by rw [h]; rfl) hc.2
        · exact absurd (by rw [hc.1, h]; rfl) hc.2
  · cases hpc : pearson_correlation a b with
    | error e => exact Or.inl ⟨e, rfl⟩
    | ok r => exact Or.inr ⟨r, rfl⟩

/-- C3: for equal-length non-empty vectors, `pearson_correlation`
returns exactly 0 when either vector is constant, and otherwise returns
the standard Pearson coefficient, whose denominator is nonzero and
whose value lies in [-1, 1]. -/
theorem pearson_correlation_range (a b : List ℝ) (hlen : a.length = b.length)
    (hne : a ≠ []) :
    ((allEq a ∨ allEq b) → pearson_correlation a b = Except.ok 0) ∧
    (¬ (allEq a ∨ allEq b) →
      pearson_correlation a b = Except.ok (corrcoef a b) ∧
      Real.sqrt (varSum a) * Real.sqrt (varSum b) ≠ 0 ∧
      -1 ≤ corrcoef a b ∧ corrcoef a b ≤ 1) := by
  have hcond : ¬ (a.length ≠ b.length ∨ a.length = 0) := by
    push_neg
    exact ⟨hlen, fun h => hne (List.length_eq_zero.mp h)⟩
  constructor
  · intro hd
    rw [pearson_correlation, if_neg hcond, if_pos hd]
  · intro hd
    have hd' := hd
    push_neg at hd
    have hbne : b ≠ [] := by
      intro h
      apply hne
      rw [← List.length_eq_zero, hlen, h]
      rfl
    have hva : 0 < varSum a := varSum_pos hne hd.1
    have hvb : 0 < varSum b := varSum_pos hbne hd.2
    have hdpos : 0 < Real.sqrt (varSum a) * Real.sqrt (varSum b) :=
      mul_pos (Real.sqrt_pos.mpr hva) (Real.sqrt_pos.mpr hvb)
    rcases abs_le.mp (corrcoef_abs_le hlen hva hvb) with ⟨h1, h2⟩
    refine ⟨?_, ne_of_gt hdpos, h1, h2⟩
    rw [pearson_correlation, if_neg hcond, if_neg hd']

/-- Witness for C3 at the concrete non-constant pair a = [1,2], b = [2,1]. -/
theorem pearson_correlation_range_witness :
    (([(1:ℝ), 2]).length = ([(2:ℝ), 1]).length ∧ ([(1:ℝ), 2]) ≠ []) ∧
    (((allEq [(1:ℝ), 2] ∨ allEq [(2:ℝ), 1]) →
        pearson_correlation [(1:ℝ), 2] [(2:ℝ), 1] = Except.ok 0) ∧
      (¬ (allEq [(1:ℝ), 2] ∨ allEq [(2:ℝ), 1]) →
        pearson_correlation [(1:ℝ), 2] [(2:ℝ), 1] =
            Except.ok (corrcoef [(1:ℝ), 2] [(2:ℝ), 1]) ∧
          Real.sqrt (varSum [(1:ℝ), 2]) * Real.sqrt (varSum [(2:ℝ), 1]) ≠ 0 ∧
          -1 ≤ corrcoef [(1:ℝ), 2] [(2:ℝ), 1] ∧ corrcoef [(1:ℝ), 2] [(2:ℝ), 1] ≤ 1)) :=
  ⟨⟨rfl, by simp⟩, pearson_correlation_range [(1:ℝ), 2] [(2:ℝ), 1] rfl (by simp)⟩

theorem adjacent_symm {g : List (Nat × Nat)} {x y : Nat} (h : adjacent g x y) :
    adjacent g y x := h.symm

theorem mem_adjNodes {g : List (Nat × Nat)} {x y : Nat} :
    y ∈ adjNodes g x ↔ adjacent g x y := by
  rw [adjNodes, List.mem_dedup, List.mem_filterMap]
  constructor
  · rintro ⟨e, he, hsome⟩
    by_cases h1 : e.1 = x
    · rw [if_pos h1] at hsome
      left
      have hxy : (x, y) = e := Prod.ext h1.symm (Option.some.inj hsome).symm
      exact hxy ▸ he
    · rw [if_neg h1] at hsome
      by_cases h2 : e.2 = x
      · rw [if_pos h2] at hsome
        right
        have hyx : (y, x) = e := Prod.ext (Option.some.inj hsome).symm h2.symm
        exact hyx ▸ he
      · rw [if_neg h2] at hsome
        exact Option.noConfusion hsome
  · rintro (h | h)
    · exact ⟨(x, y), h, by simp⟩
    · refine ⟨(y, x), h, ?_⟩
      by_cases hxy : y = x
      · subst hxy
        simp
      · simp [hxy]

theorem hopPaths_sound {g : List (Nat × Nat)} {a : Nat} :
    ∀ k, ∀ r ∈ hopPaths g a k,
      r.length = k + 1 ∧ r.getLast? = some a ∧ List.Chain' (adjacent g) r := by
  intro k
  induction k with
  | zero =>
      intro r hr
      rw [hopPaths] at hr
      rcases List.mem_singleton.mp hr with rfl
      exact ⟨rfl, rfl, List.chain'_singleton a⟩
  | succ k ih =>
      intro r hr
      rw [hopPaths, stepPaths] at hr
      rcases List.mem_flatMap.mp hr with ⟨p, hp, hrp⟩
      rcases ih p hp with ⟨hlen, hlast, hchain⟩
      cases p with
      | nil => simp at hlen
      | cons x rest =>
          rcases List.mem_map.mp hrp with ⟨y, hy, rfl⟩
          refine ⟨by simp at hlen ⊢; omega, ?_, ?_⟩
          · rw [List.getLast?_cons_cons]
            exact hlast
          · rw [List.chain'_cons]
            exact ⟨adjacent_symm (mem_adjNodes.mp hy), hchain⟩

theorem hopPaths_complete {g : List (Nat × Nat)} {a : Nat} :
    ∀ (k : Nat) (r : List Nat), r.length = k + 1 → r.getLast? = some a →
      List.Chain' (adjacent g) r → r ∈ hopPaths g a k := by
  intro k
  induction k with
  | zero =>
      intro r hlen hlast _
      cases r with
      | nil => simp at hlen
      | cons v rest =>
          have hrest : rest = [] := by
            simp at hlen
            exact hlen
          subst hrest
          have hv : v = a := by
            simpa using hlast
          subst hv
          rw [hopPaths]
          exact List.mem_singleton.mpr rfl
  | succ k ih =>
      intro r hlen hlast hchain
      cases r with
      | nil => simp at hlen
      | cons y p =>
          have hplen : p.length = k + 1 := by
            simp at hlen
            omega
          cases p with
          | nil => simp at hplen
          | cons x rest =>
              rw [List.getLast?_cons_cons] at hlast
              rw [List.chain'_cons] at hchain
              have hmem : (x :: rest) ∈ hopPaths g a k := ih _ hplen hlast hchain.2
              rw [hopPaths, stepPaths]
              refine List.mem_flatMap.mpr ⟨x :: rest, hmem, ?_⟩
              exact List.mem_map.mpr ⟨y, mem_adjNodes.mpr (adjacent_symm hchain.1), rfl⟩

/-- C8: the shortest-path lookup traverses `KNOWS` edges in either
direction (undirected adjacency), only finds paths of at most 6 hops
(7 nodes), and a returned path is the ordered id sequence from source
to destination inclusive and is never empty; when no connecting path of
at most 6 hops exists, the result is the not-found signal `none`. -/
theorem shortest_path_spec (g : List (Nat × Nat)) (a b : Nat) :
    (∀ p, shortest_path g a b = some p →
      p ≠ [] ∧ p.head? = some a ∧ p.getLast? = some b ∧ p.length ≤ 7 ∧
        List.Chain' (adjacent g) p) ∧
    (shortest_path g a b = none →
      ¬ ∃ p, p.head? = some a ∧ p.getLast? = some b ∧ p.length ≤ 7 ∧
        List.Chain' (adjacent g) p) := by
  constructor
  · intro p hp
    rw [shortest_path] at hp
    rcases Option.map_eq_some'.mp hp with ⟨r, hfind, rfl⟩
    have hmem := List.mem_of_find?_eq_some hfind
    have hpred := List.find?_some hfind
    have hhead : r.head? = some b := by
      simpa using hpred
    rcases List.mem_flatMap.mp hmem with ⟨k, hk, hrk⟩
    rcases hopPaths_sound k r hrk with ⟨hlen, hlast, hchain⟩
    have hk7 : k < 7 := List.mem_range.mp hk
    have hrne : r ≠ [] := by
      intro h
      rw [h] at hlen
      simp at hlen
    refine ⟨by simpa using hrne, ?_, ?_, ?_, ?_⟩
    · rw [List.head?_reverse]
      exact hlast
    · rw [List.getLast?_reverse]
      exact hhead
    · rw [List.length_reverse]
      omega
    · rw [List.chain'_reverse]
      exact List.Chain'.imp (fun c d h => adjacent_symm h) hchain
  · intro hnone
    rintro ⟨p, hhead, hlast, hlen7, hchain⟩
    rw [shortest_path, Option.map_eq_none'] at hnone
    have hall := List.find?_eq_none.mp hnone
    have hpne : p ≠ [] := by
      intro h
      rw [h] at hhead
      exact Option.noConfusion hhead
    have hplen : 1 ≤ p.length := by
      cases p with
      | nil => exact absurd rfl hpne
      | cons x rest => simp
    have hrchain : List.Chain' (adjacent g) p.reverse := by
      rw [List.chain'_reverse]
      exact List.Chain'.imp (fun c d h => adjacent_symm h) hchain
    have hrlen : p.reverse.length = (p.length - 1) + 1 := by
      rw [List.length_reverse]
      omega
    have hrlast : p.reverse.getLast? = some a := by
      rw [List.getLast?_reverse]
      exact hhead
    have hrmem : p.reverse ∈ (List.range 7).flatMap (hopPaths g a) := by
      refine List.mem_flatMap.mpr ⟨p.length - 1, List.mem_range.mpr (by omega), ?_⟩
      exact hopPaths_complete _ _ hrlen hrlast hrchain
    have := hall _ hrmem
    rw [List.head?_reverse, hlast] at this
    simp at this

/-- Witness for C8: in the graph with the single stored edge `(2, 1)`,
the lookup from 1 to 2 succeeds by traversing the edge backwards
(undirected semantics), while the lookup from 1 to 3 is not found. -/
theorem shortest_path_spec_witness :
    (shortest_path [(2, 1)] 1 2 = some [1, 2] ∧
      (([1, 2] : List Nat) ≠ [] ∧ ([1, 2] : List Nat).head? = some 1 ∧
        ([1, 2] : List Nat).getLast? = some 2 ∧ ([1, 2] : List Nat).length ≤ 7 ∧
        List.Chain' (adjacent [(2, 1)]) [1, 2])) ∧
    (shortest_path [(2, 1)] 1 3 = none ∧
      ¬ ∃ p, p.head? = some 1 ∧ p.getLast? = some 3 ∧ p.length ≤ 7 ∧
        List.Chain' (adjacent [(2, 1)]) p) :=
  ⟨⟨by decide, (shortest_path_spec [(2, 1)] 1 2).1 [1, 2] (by decide)⟩,
   ⟨by decide, (shortest_path_spec [(2, 1)] 1 3).2 (by decide)⟩⟩

/-- C1: for every input vector and every dimension, the projection
returns a vector of length exactly `d` (it is a total function, so it
never fails), and the empty input is mapped to the all-zero vector of
length `d`. -/
theorem project_features_to_embedding_spec (v : List ℝ) (d : Nat) :
    (project_features_to_embedding v d).length = d ∧
    project_features_to_embedding [] d = List.replicate d 0 :=
  ⟨project_length v d, by rw [project_features_to_embedding]; simp⟩

theorem l2norm_append_zeros (v : List ℝ) (k : Nat) :
    l2norm (v ++ List.replicate k 0) = l2norm v := by
  rw [l2norm, l2norm, List.map_append, List.sum_append, List.map_replicate]
  simp

/-- C9 counterexample: at v = [3, 4] and d = 1 the two snapshot
versions disagree — the core projection L2-normalizes before truncating
and returns [3/5], while version2 truncates before normalizing and
returns [1]. -/
theorem project_vs_to_numeric_counterexample :
    project_features_to_embedding [(3 : ℝ), 4] 1 ≠ to_numeric_vector [(3 : ℝ), 4] 1 := by
  have e1 : l2norm [(3 : ℝ), 4] = 5 := by
    have hs : (([(3 : ℝ), 4]).map (fun x => x ^ 2)).sum = 5 ^ 2 := by
      simp only [List.map_cons, List.map_nil, List.sum_cons, List.sum_nil]
      norm_num
    rw [l2norm, hs, Real.sqrt_sq (by norm_num : (0 : ℝ) ≤ 5)]
  have e2 : l2norm [(3 : ℝ)] = 3 := by
    have hs : (([(3 : ℝ)]).map (fun x => x ^ 2)).sum = 3 ^ 2 := by
      simp only [List.map_cons, List.map_nil, List.sum_cons, List.sum_nil]
      norm_num
    rw [l2norm, hs, Real.sqrt_sq (by norm_num : (0 : ℝ) ≤ 3)]
  have hp : project_features_to_embedding [(3 : ℝ), 4] 1 = [3 / 5] := by
    rw [project_features_to_embedding]
    rw [if_neg (by simp : ¬([(3 : ℝ), 4].length = 0))]
    rw [e1, if_pos (by norm_num : (0 : ℝ) < 5)]
    rw [if_pos (by simp : 1 ≤ ([(3 : ℝ), 4].map (fun x => x / 5)).length)]
    rfl
  have hv : to_numeric_vector [(3 : ℝ), 4] 1 = [1] := by
    rw [to_numeric_vector]
    rw [if_neg (by simp : ¬([(3 : ℝ), 4].length = 0))]
    rw [if_pos (by simp : 1 ≤ [(3 : ℝ), 4].length)]
    have ht : ([(3 : ℝ), 4]).take 1 = [(3 : ℝ)] := rfl
    rw [ht]
    simp only []
    rw [e2, if_pos (by norm_num : (0 : ℝ) < 3)]
    norm_num
  rw [hp, hv]
  intro h
  have := List.head_eq_of_cons_eq h
  norm_num at this

/-- C9 (amended): the two projection pipelines coincide on every input
whose length is at most the target dimension (truncation is then a
no-op, and zero-padding commutes with L2 normalization); they are one
configurable pipeline only on that domain, and differ in general when
the input is longer than the dimension. -/
theorem project_eq_to_numeric_of_le (v : List ℝ) (d : Nat) (h : v.length ≤ d) :
    project_features_to_embedding v d = to_numeric_vector v d := by
  rw [project_features_to_embedding, to_numeric_vector]
  by_cases h0 : v.length = 0
  · rw [if_pos h0, if_pos h0]
  · rw [if_neg h0, if_neg h0]
    simp only []
    by_cases hd : d ≤ v.length
    · have hdd : v.length = d := le_antisymm h hd
      rw [if_pos hd, ← hdd, List.take_length]
      by_cases hn : 0 < l2norm v
      · rw [if_pos hn, List.length_map, if_pos (le_refl v.length),
            show v.length = (List.map (fun x => x / l2norm v) v).length from
              (List.length_map _ _).symm,
            List.take_length]
      · rw [if_neg hn, if_pos (le_refl v.length), List.take_length]
    · rw [if_neg hd]
      have hz := l2norm_append_zeros v (d - v.length)
      rw [hz]
      by_cases hn : 0 < l2norm v
      · rw [if_pos hn, List.length_map, if_neg hd]
        rw [List.map_append, List.map_replicate]
        simp
        rw [if_pos hn]
      · rw [if_neg hn, if_neg hd]
        rw [if_neg hn]

/-- Witness for the amended C9 at v = [3, 4], d = 2. -/
theorem project_eq_to_numeric_of_le_witness :
    ([(3 : ℝ), 4]).length ≤ 2 ∧
      project_features_to_embedding [(3 : ℝ), 4] 2 = to_numeric_vector [(3 : ℝ), 4] 2 :=
  ⟨by simp, project_eq_to_numeric_of_le [(3 : ℝ), 4] 2 (by simp)⟩

theorem outNeighbors_nodup (g : List (Nat × Nat)) (u : Nat) :
    (outNeighbors g u).Nodup := List.nodup_dedup _

theorem mem_friendCandidates {g : List (Nat × Nat)} {u c : Nat} :
    c ∈ friendCandidates g u ↔
      ((∃ m, m ∈ outNeighbors g u ∧ c ∈ outNeighbors g m) ∧
        c ≠ u ∧ c ∉ outNeighbors g u) := by
  rw [friendCandidates, List.mem_filter, List.mem_dedup, List.mem_flatMap]
  simp only [Bool.and_eq_true, decide_eq_true_eq]

theorem mutualCount_eq_card (g : List (Nat × Nat)) (u c : Nat) :
    mutualCount g u c =
      (Finset.filter (fun m => c ∈ outNeighbors g m) (outNeighbors g u).toFinset).card := by
  rw [mutualCount]
  have hnd : ((outNeighbors g u).filter (fun m => decide (c ∈ outNeighbors g m))).Nodup :=
    (outNeighbors_nodup g u).filter _
  rw [← List.toFinset_card_of_nodup hnd]
  congr 1
  ext m
  simp [List.mem_filter]

/-- C5: the mutual-friend candidate pool is exactly the
neighbors-of-neighbors minus the target and its direct neighbors; each
candidate's score is the number of distinct first-degree neighbors it
shares with the target; the full ranking covers exactly the candidate
pool, entries are ordered by mutual count descending, and the first
`lim` are returned. In the concrete graph where user 1 knows 2 and 3
and both know 4, user 4 is recommended with mutual count 2. -/
theorem get_friend_recommendations_spec (g : List (Nat × Nat)) (u lim : Nat) :
    (∀ c, c ∈ friendCandidates g u ↔
      ((∃ m, m ∈ outNeighbors g u ∧ c ∈ outNeighbors g m) ∧
        c ≠ u ∧ c ∉ outNeighbors g u)) ∧
    (∀ c, mutualCount g u c =
      (Finset.filter (fun m => c ∈ outNeighbors g m) (outNeighbors g u).toFinset).card) ∧
    List.Perm
      ((sortDesc (fun p : Nat × Nat => p.2)
        ((friendCandidates g u).map (fun c => (c, mutualCount g u c)))).map Prod.fst)
      (friendCandidates g u) ∧
    (get_friend_recommendations g u lim).Forall
      (fun p => p.1 ∈ friendCandidates g u ∧ p.2 = mutualCount g u p.1) ∧
    (get_friend_recommendations g u lim).Pairwise (fun p q => q.2 ≤ p.2) ∧
    get_friend_recommendations [(1, 2), (1, 3), (2, 4), (3, 4)] 1 10 = [(4, 2)] := by
  refine ⟨fun c => mem_friendCandidates, fun c => mutualCount_eq_card g u c, ?_, ?_, ?_, by decide⟩
  · have hperm := List.Perm.map Prod.fst
      (sortDesc_perm (fun p : Nat × Nat => p.2)
        ((friendCandidates g u).map (fun c => (c, mutualCount g u c))))
    refine hperm.trans ?_
    rw [List.map_map,
      show (Prod.fst ∘ fun c => (c, mutualCount g u c)) = fun c : Nat => c from rfl,
      List.map_id']
  · rw [List.forall_iff_forall_mem]
    intro p hp
    have hp1 : p ∈ sortDesc (fun p : Nat × Nat => p.2)
        ((friendCandidates g u).map (fun c => (c, mutualCount g u c))) :=
      List.Sublist.mem hp (List.take_sublist _ _)
    have hp2 := (sortDesc_perm _ _).mem_iff.mp hp1
    rcases List.mem_map.mp hp2 with ⟨c, hc, rfl⟩
    exact ⟨hc, rfl⟩
  · exact List.Pairwise.sublist (List.take_sublist _ _) (sortDesc_pairwise _ _)

theorem pymkLoop_ok_mem {tf : List ℝ} :
    ∀ (cands : List UserNode) (l : List (Nat × Option String × ℝ)),
      pymkLoop tf cands = Except.ok l →
      ∀ p ∈ l, ∃ o, o ∈ cands ∧ p.1 = o.id ∧ p.2.1 = o.name := by
  intro cands
  induction cands with
  | nil =>
      intro l hl p hp
      rw [pymkLoop] at hl
      rcases Except.ok.inj hl with rfl
      exact absurd hp (List.not_mem_nil p)
  | cons o rest ih =>
      intro l hl p hp
      rw [pymkLoop] at hl
      cases hf : o.features with
      | none =>
          rw [hf] at hl
          rcases ih l hl p hp with ⟨o', ho', h1, h2⟩
          exact ⟨o', List.mem_cons_of_mem o ho', h1, h2⟩
      | some f =>
          rw [hf] at hl
          simp only [] at hl
          by_cases hlen : f.length = tf.length
          · rw [if_pos hlen] at hl
            cases hpc : pearson_correlation tf f with
            | error e =>
                rw [hpc] at hl
                exact Except.noConfusion hl
            | ok r =>
                rw [hpc] at hl
                cases hrec : pymkLoop tf rest with
                | error e =>
                    rw [hrec] at hl
                    exact Except.noConfusion hl
                | ok l' =>
                    rw [hrec] at hl
                    rcases Except.ok.inj hl with rfl
                    rcases List.mem_cons.mp hp with rfl | hp'
                    · exact ⟨o, List.mem_cons_self o rest, rfl, rfl⟩
                    · rcases ih l' hrec p hp' with ⟨o', ho', h1, h2⟩
                      exact ⟨o', List.mem_cons_of_mem o ho', h1, h2⟩
          · rw [if_neg hlen] at hl
            rcases ih l hl p hp with ⟨o', ho', h1, h2⟩
            exact ⟨o', List.mem_cons_of_mem o ho', h1, h2⟩

/-- C10: the target user never appears among its own results: both the
mutual-friend ranking and the people-you-may-know ranking exclude the
target's id from the candidate pool. -/
theorem target_excluded_from_own_results (g : List (Nat × Nat)) (s : Store)
    (uid lim : Nat) (l : List (Nat × Option String × ℝ))
    (hpymk : get_people_you_may_know s uid lim = Except.ok l) :
    uid ∉ (get_friend_recommendations g uid lim).map Prod.fst ∧
    uid ∉ l.map Prod.fst := by
  constructor
  · intro hmem
    rcases List.mem_map.mp hmem with ⟨p, hp, hfst⟩
    have hp1 : p ∈ sortDesc (fun p : Nat × Nat => p.2)
        ((friendCandidates g uid).map (fun c => (c, mutualCount g uid c))) :=
      List.Sublist.mem hp (List.take_sublist _ _)
    have hp2 := (sortDesc_perm _ _).mem_iff.mp hp1
    rcases List.mem_map.mp hp2 with ⟨c, hc, rfl⟩
    exact (mem_friendCandidates.mp hc).2.1 hfst
  · intro hmem
    rw [get_people_you_may_know] at hpymk
    cases hfind : s.users.find? (fun u => u.id == uid) with
    | none =>
        rw [hfind] at hpymk
        rcases Except.ok.inj hpymk with rfl
        exact absurd hmem (List.not_mem_nil uid)
    | some u =>
        rw [hfind] at hpymk
        simp only [] at hpymk
        cases hf : u.features with
        | none =>
            rw [hf] at hpymk
            rcases Except.ok.inj hpymk with rfl
            exact absurd hmem (List.not_mem_nil uid)
        | some tf =>
            rw [hf] at hpymk
            simp only [] at hpymk
            cases hloop : pymkLoop tf
                (s.users.filter (fun o => o.id != uid && o.features.isSome)) with
            | error e =>
                rw [hloop] at hpymk
                exact Except.noConfusion hpymk
            | ok l0 =>
                rw [hloop] at hpymk
                rcases Except.ok.inj hpymk with rfl
                rcases List.mem_map.mp hmem with ⟨p, hp, hfst⟩
                have hp1 : p ∈ sortDesc (fun t : Nat × Option String × ℝ => t.2.2) l0 :=
                  List.Sublist.mem hp (List.take_sublist _ _)
                have hp2 := (sortDesc_perm _ _).mem_iff.mp hp1
                rcases pymkLoop_ok_mem _ l0 hloop p hp2 with ⟨o, ho, hid, _⟩
                have := (List.mem_filter.mp ho).2
                rw [Bool.and_eq_true, bne_iff_ne] at this
                exact this.1 (by rw [← hid, hfst])

theorem corrcoef_example : corrcoef [(1 : ℝ), 2] [(2 : ℝ), 1] = -1 := by
  have hm1 : listMean [(1 : ℝ), 2] = 3 / 2 := by
    rw [listMean]
    simp only [List.sum_cons, List.sum_nil, List.length_cons, List.length_nil]
    norm_num
  have hm2 : listMean [(2 : ℝ), 1] = 3 / 2 := by
    rw [listMean]
    simp only [List.sum_cons, List.sum_nil, List.length_cons, List.length_nil]
    norm_num
  have hc1 : centered [(1 : ℝ), 2] = [-(1 / 2), 1 / 2] := by
    rw [centered, hm1]
    simp only [List.map_cons, List.map_nil]
    norm_num
  have hc2 : centered [(2 : ℝ), 1] = [1 / 2, -(1 / 2)] := by
    rw [centered, hm2]
    simp only [List.map_cons, List.map_nil]
    norm_num
  have hva : varSum [(1 : ℝ), 2] = 1 / 2 := by
    rw [varSum, hc1]
    simp only [List.map_cons, List.map_nil, List.sum_cons, List.sum_nil]
    norm_num
  have hvb : varSum [(2 : ℝ), 1] = 1 / 2 := by
    rw [varSum, hc2]
    simp only [List.map_cons, List.map_nil, List.sum_cons, List.sum_nil]
    norm_num
  have hcov : covSum [(1 : ℝ), 2] [(2 : ℝ), 1] = -(1 / 2) := by
    rw [covSum, hc1, hc2]
    simp only [List.zip_cons_cons, List.zip_nil_right, List.map_cons, List.map_nil,
      List.sum_cons, List.sum_nil]
    norm_num
  rw [corrcoef, hcov, hva, hvb, Real.mul_self_sqrt (by norm_num : (0 : ℝ) ≤ 1 / 2)]
  norm_num

theorem pearson_example :
    pearson_correlation [(1 : ℝ), 2] [(2 : ℝ), 1] = Except.ok (-1) := by
  have hcond : ¬(([(1 : ℝ), 2]).length ≠ ([(2 : ℝ), 1]).length ∨
      ([(1 : ℝ), 2]).length = 0) := by
    simp
  have hall : ¬(allEq [(1 : ℝ), 2] ∨ allEq [(2 : ℝ), 1]) := by
    rintro (h | h)
    · have := h 2 (by simp)
      norm_num [List.headI] at this
    · have := h 1 (by simp)
      norm_num [List.headI] at this
  rw [pearson_correlation, if_neg hcond, if_neg hall, corrcoef_example]

theorem pymk_negStore_eval :
    get_people_you_may_know negStore 1 10 = Except.ok [(2, none, -1)] := by
  have hstep : pymkLoop [(1 : ℝ), 2] [⟨2, none, some [(2 : ℝ), 1], none⟩] =
      (match pearson_correlation [(1 : ℝ), 2] [(2 : ℝ), 1] with
        | Except.error e => Except.error e
        | Except.ok r =>
            (Except.ok ([] : List (Nat × Option String × ℝ))).map
              (fun l => ((2 : Nat), (none : Option String), r) :: l)) := rfl
  have hloop : pymkLoop [(1 : ℝ), 2] [⟨2, none, some [(2 : ℝ), 1], none⟩] =
      Except.ok [(2, none, -1)] := by
    rw [hstep, pearson_example]
    rfl
  calc get_people_you_may_know negStore 1 10
      = (pymkLoop [(1 : ℝ), 2] [⟨2, none, some [(2 : ℝ), 1], none⟩]).map
          (fun l => (sortDesc (fun t : Nat × Option String × ℝ => t.2.2) l).take 10) := rfl
    _ = Except.ok [(2, none, -1)] := by rw [hloop]; rfl

theorem scoreJob_some {uv : List ℝ} {j : JobNode} {sj : ScoredJob}
    (h : scoreJob uv j = some sj) :
    ∃ jv, j.embedding = some jv ∧ jv.length = uv.length ∧ jv.length ≠ 0 ∧
      l2norm uv ≠ 0 ∧ l2norm jv ≠ 0 ∧
      sj.score = dotList uv jv / (l2norm uv * l2norm jv) ∧ 0 < sj.score ∧
      sj.job_id = j.job_id := by
  rw [scoreJob] at h
  cases hje : j.embedding with
  | none =>
      rw [hje] at h
      exact Option.noConfusion h
  | some jv =>
      rw [hje] at h
      simp only [] at h
      by_cases h1 : jv.length ≠ uv.length ∨ jv.length = 0
      · rw [if_pos h1] at h
        exact Option.noConfusion h
      · rw [if_neg h1] at h
        push_neg at h1
        by_cases h2 : l2norm uv * l2norm jv = 0
        · rw [if_pos h2] at h
          exact Option.noConfusion h
        · rw [if_neg h2] at h
          rcases mul_ne_zero_iff.mp h2 with ⟨hu, hj⟩
          by_cases h3 : dotList uv jv / (l2norm uv * l2norm jv) ≤ 0
          · rw [if_pos h3] at h
            exact Option.noConfusion h
          · rw [if_neg h3] at h
            rcases Option.some.inj h with rfl
            exact ⟨jv, rfl, h1.1, h1.2, hu, hj, rfl, lt_of_not_le h3, rfl⟩

/-- C4: every entry of the job-recommendation result has strictly
positive score and arises from a job whose embedding has nonzero norm,
compared against a target embedding of nonzero norm (zero-norm pairs
are excluded from the ranking rather than scored as 0); in contrast,
the people-you-may-know ranking retains negatively scored candidates:
on `negStore` the sole candidate is returned with Pearson score -1. -/
theorem job_scores_positive_and_pymk_keeps_negatives :
    (∀ (s : Store) (uid lim : Nat),
      (get_job_recommendations s uid lim).Forall (fun sj =>
        0 < sj.score ∧
        (∃ j, j ∈ s.jobs ∧ sj.job_id = j.job_id ∧
          ∃ jv, j.embedding = some jv ∧ l2norm jv ≠ 0) ∧
        (∃ u, s.users.find? (fun w => w.id == uid) = some u ∧
          ∃ uv, u.embedding = some uv ∧ l2norm uv ≠ 0))) ∧
    (∃ l, get_people_you_may_know negStore 1 10 = Except.ok l ∧
      ∃ p, p ∈ l ∧ p.2.2 < 0) := by
  constructor
  · intro s uid lim
    rw [List.forall_iff_forall_mem]
    intro sj hsj
    rw [get_job_recommendations] at hsj
    cases hfind : s.users.find? (fun u => u.id == uid) with
    | none =>
        rw [hfind] at hsj
        exact absurd hsj (List.not_mem_nil sj)
    | some u =>
        rw [hfind] at hsj
        simp only [] at hsj
        cases hemb : u.embedding with
        | none =>
            rw [hemb] at hsj
            exact absurd hsj (List.not_mem_nil sj)
        | some uv =>
            rw [hemb] at hsj
            simp only [] at hsj
            by_cases h0 : uv.length = 0
            · rw [if_pos h0] at hsj
              exact absurd hsj (List.not_mem_nil sj)
            · rw [if_neg h0] at hsj
              have hsj1 : sj ∈ sortDesc (fun sj : ScoredJob => sj.score)
                  ((s.jobs.filter (fun j => j.embedding.isSome)).filterMap (scoreJob uv)) :=
                List.Sublist.mem hsj (List.take_sublist _ _)
              have hsj2 := (sortDesc_perm _ _).mem_iff.mp hsj1
              rcases List.mem_filterMap.mp hsj2 with ⟨j, hj, hscore⟩
              rcases scoreJob_some hscore with
                ⟨jv, hjv, _, _, hu, hjn, _, hpos, hid⟩
              exact ⟨hpos, ⟨j, (List.mem_filter.mp hj).1, hid, jv, hjv, hjn⟩,
                ⟨u, rfl, uv, hemb, hu⟩⟩
  · exact ⟨[(2, none, -1)], pymk_negStore_eval, (2, none, -1), by simp, by norm_num⟩

/-- C7: when the target user is missing from the store or lacks the
required attribute — features for people-you-may-know, an absent or
empty embedding for job ranking — the engine returns the empty result
list instead of failing. -/
theorem missing_target_empty_result (s : Store) (uid lim : Nat) :
    ((s.users.find? (fun u => u.id == uid) = none ∨
      (∃ u, s.users.find? (fun u => u.id == uid) = some u ∧ u.features = none)) →
      get_people_you_may_know s uid lim = Except.ok []) ∧
    ((s.users.find? (fun u => u.id == uid) = none ∨
      (∃ u, s.users.find? (fun u => u.id == uid) = some u ∧
        (u.embedding = none ∨ u.embedding = some []))) →
      get_job_recommendations s uid lim = []) := by
  constructor
  · rintro (hfind | ⟨u, hfind, hf⟩)
    · rw [get_people_you_may_know, hfind]
    · rw [get_people_you_may_know, hfind]
      simp only []
      rw [hf]
  · rintro (hfind | ⟨u, hfind, hemb⟩)
    · rw [get_job_recommendations, hfind]
    · rcases hemb with hemb | hemb
      · rw [get_job_recommendations, hfind]
        simp only []
        rw [hemb]
      · rw [get_job_recommendations, hfind]
        simp only []
        rw [hemb]
        simp only []
        rw [if_pos List.length_nil]

/-- Witness for C7 on `bareStore`: its only user (id 7) has neither
features nor embedding, and both rankings return the empty result. -/
theorem missing_target_empty_result_witness :
    ((∃ u, bareStore.users.find? (fun u => u.id == 7) = some u ∧ u.features = none) ∧
      get_people_you_may_know bareStore 7 10 = Except.ok []) ∧
    ((∃ u, bareStore.users.find? (fun u => u.id == 7) = some u ∧
        (u.embedding = none ∨ u.embedding = some [])) ∧
      get_job_recommendations bareStore 7 10 = []) :=
  ⟨⟨⟨⟨7, none, none, none⟩, rfl, rfl⟩,
    (missing_target_empty_result bareStore 7 10).1
      (Or.inr ⟨⟨7, none, none, none⟩, rfl, rfl⟩)⟩,
   ⟨⟨⟨7, none, none, none⟩, rfl, Or.inl rfl⟩,
    (missing_target_empty_result bareStore 7 10).2
      (Or.inr ⟨⟨7, none, none, none⟩, rfl, Or.inl rfl⟩)⟩⟩

/-- Witness for C10 on `negStore` (target id 1, with the ranked list
returned by the people-you-may-know evaluation). -/
theorem target_excluded_from_own_results_witness :
    get_people_you_may_know negStore 1 10 = Except.ok [(2, none, -1)] ∧
    (1 ∉ (get_friend_recommendations [(1, 2)] 1 10).map Prod.fst ∧
      1 ∉ ([((2 : Nat), (none : Option String), (-1 : ℝ))]).map Prod.fst) :=
  ⟨pymk_negStore_eval,
    target_excluded_from_own_results [(1, 2)] negStore 1 10 _ pymk_negStore_eval⟩

theorem friend_rank_ids_perm (g : List (Nat × Nat)) (u : Nat) :
    List.Perm
      ((sortDesc (fun p : Nat × Nat => p.2)
        ((friendCandidates g u).map (fun c => (c, mutualCount g u c)))).map Prod.fst)
      (friendCandidates g u) := by
  have hperm := List.Perm.map Prod.fst
    (sortDesc_perm (fun p : Nat × Nat => p.2)
      ((friendCandidates g u).map (fun c => (c, mutualCount g u c))))
  refine hperm.trans ?_
  rw [List.map_map,
    show (Prod.fst ∘ fun c => (c, mutualCount g u c)) = fun c : Nat => c from rfl,
    List.map_id']

theorem pymkLoop_ok_ids {tf : List ℝ} :
    ∀ (cands : List UserNode) (l : List (Nat × Option String × ℝ)),
      pymkLoop tf cands = Except.ok l →
      List.Sublist (l.map Prod.fst) (cands.map (fun o => o.id)) := by
  intro cands
  induction cands with
  | nil =>
      intro l hl
      rw [pymkLoop] at hl
      rcases Except.ok.inj hl with rfl
      simp
  | cons o rest ih =>
      intro l hl
      rw [pymkLoop] at hl
      cases hf : o.features with
      | none =>
          rw [hf] at hl
          exact (ih l hl).cons _
      | some f =>
          rw [hf] at hl
          simp only [] at hl
          by_cases hlen : f.length = tf.length
          · rw [if_pos hlen] at hl
            cases hpc : pearson_correlation tf f with
            | error e =>
                rw [hpc] at hl
                exact Except.noConfusion hl
            | ok r =>
                rw [hpc] at hl
                cases hrec : pymkLoop tf rest with
                | error e =>
                    rw [hrec] at hl
                    exact Except.noConfusion hl
                | ok l' =>
                    rw [hrec] at hl
                    rcases Except.ok.inj hl with rfl
                    rw [List.map_cons]
                    exact (ih l' hrec).cons₂ _
          · rw [if_neg hlen] at hl
            exact (ih l hl).cons _

theorem map_filterMap_sublist {α β γ : Type*} (f : α → Option β) (g : β → γ) (h : α → γ)
    (hfg : ∀ a b, f a = some b → g b = h a) :
    ∀ l : List α, List.Sublist ((l.filterMap f).map g) (l.map h) := by
  intro l
  induction l with
  | nil => simp
  | cons a l ih =>
      rw [List.filterMap_cons, List.map_cons]
      cases hfa : f a with
      | none => exact ih.cons _
      | some b =>
          rw [List.map_cons, hfg a b hfa]
          exact ih.cons₂ _

/-- C6: for each of the three ranking operations and every limit, the
result has length at most `lim`, is sorted by score descending, and
contains no duplicate candidate ids (the stores satisfy the data-model
invariant that node ids are unique within their type). -/
theorem ranking_limit_sorted_nodup (g : List (Nat × Nat)) (s : Store)
    (uid lim : Nat) (l : List (Nat × Option String × ℝ))
    (husers : (s.users.map (fun u => u.id)).Nodup)
    (hjobs : (s.jobs.map (fun j => j.job_id)).Nodup)
    (hpymk : get_people_you_may_know s uid lim = Except.ok l) :
    ((get_friend_recommendations g uid lim).length ≤ lim ∧
      (get_friend_recommendations g uid lim).Pairwise (fun p q => q.2 ≤ p.2) ∧
      ((get_friend_recommendations g uid lim).map Prod.fst).Nodup) ∧
    (l.length ≤ lim ∧
      l.Pairwise (fun p q => q.2.2 ≤ p.2.2) ∧
      (l.map Prod.fst).Nodup) ∧
    ((get_job_recommendations s uid lim).length ≤ lim ∧
      (get_job_recommendations s uid lim).Pairwise (fun p q => q.score ≤ p.score) ∧
      ((get_job_recommendations s uid lim).map (fun sj => sj.job_id)).Nodup) := by
  refine ⟨⟨?_, ?_, ?_⟩, ?_, ?_⟩
  · rw [get_friend_recommendations, List.length_take]
    exact min_le_left _ _
  · exact List.Pairwise.sublist (List.take_sublist _ _) (sortDesc_pairwise _ _)
  · have hnd : (friendCandidates g uid).Nodup := (List.nodup_dedup _).filter _
    have h1 : ((sortDesc (fun p : Nat × Nat => p.2)
        ((friendCandidates g uid).map (fun c => (c, mutualCount g uid c)))).map
          Prod.fst).Nodup :=
      (friend_rank_ids_perm g uid).nodup_iff.mpr hnd
    rw [get_friend_recommendations, List.map_take]
    exact List.Nodup.sublist (List.take_sublist _ _) h1
  · rw [get_people_you_may_know] at hpymk
    cases hfind : s.users.find? (fun u => u.id == uid) with
    | none =>
        rw [hfind] at hpymk
        rcases Except.ok.inj hpymk with rfl
        exact ⟨Nat.zero_le _, List.Pairwise.nil, List.nodup_nil⟩
    | some u =>
        rw [hfind] at hpymk
        simp only [] at hpymk
        cases hf : u.features with
        | none =>
            rw [hf] at hpymk
            rcases Except.ok.inj hpymk with rfl
            exact ⟨Nat.zero_le _, List.Pairwise.nil, List.nodup_nil⟩
        | some tf =>
            rw [hf] at hpymk
            simp only [] at hpymk
            cases hloop : pymkLoop tf
                (s.users.filter (fun o => o.id != uid && o.features.isSome)) with
            | error e =>
                rw [hloop] at hpymk
                exact Except.noConfusion hpymk
            | ok l0 =>
                rw [hloop] at hpymk
                rcases Except.ok.inj hpymk with rfl
                refine ⟨?_, ?_, ?_⟩
                · rw [List.length_take]
                  exact min_le_left _ _
                · exact List.Pairwise.sublist (List.take_sublist _ _)
                    (sortDesc_pairwise _ _)
                · have hids : List.Sublist (l0.map Prod.fst)
                      ((s.users.filter
                        (fun o => o.id != uid && o.features.isSome)).map
                          (fun o => o.id)) :=
                    pymkLoop_ok_ids _ l0 hloop
                  have hsub : List.Sublist
                      ((s.users.filter
                        (fun o => o.id != uid && o.features.isSome)).map
                          (fun o => o.id))
                      (s.users.map (fun o => o.id)) :=
                    (List.filter_sublist _).map _
                  have hnd0 : (l0.map Prod.fst).Nodup :=
                    List.Nodup.sublist (hids.trans hsub) husers
                  have h1 : ((sortDesc (fun t : Nat × Option String × ℝ => t.2.2)
                      l0).map Prod.fst).Nodup :=
                    (List.Perm.map Prod.fst (sortDesc_perm _ _)).nodup_iff.mpr hnd0
                  rw [List.map_take]
                  exact List.Nodup.sublist (List.take_sublist _ _) h1
  · rw [get_job_recommendations]
    cases hfind : s.users.find? (fun u => u.id == uid) with
    | none => exact ⟨Nat.zero_le _, List.Pairwise.nil, List.nodup_nil⟩
    | some u =>
        simp only []
        cases hemb : u.embedding with
        | none => exact ⟨Nat.zero_le _, List.Pairwise.nil, List.nodup_nil⟩
        | some uv =>
            simp only []
            by_cases h0 : uv.length = 0
            · rw [if_pos h0]
              exact ⟨Nat.zero_le _, List.Pairwise.nil, List.nodup_nil⟩
            · rw [if_neg h0]
              refine ⟨?_, ?_, ?_⟩
              · rw [List.length_take]
                exact min_le_left _ _
              · exact List.Pairwise.sublist (List.take_sublist _ _)
                  (sortDesc_pairwise _ _)
              · have hids : List.Sublist
                    (((s.jobs.filter (fun j => j.embedding.isSome)).filterMap
                      (scoreJob uv)).map (fun sj => sj.job_id))
                    ((s.jobs.filter (fun j => j.embedding.isSome)).map
                      (fun j => j.job_id)) := by
                  refine map_filterMap_sublist _ _ _ ?_ _
                  intro j sj hjs
                  exact (scoreJob_some hjs).choose_spec.2.2.2.2.2.2.2
                have hsub : List.Sublist
                    ((s.jobs.filter (fun j => j.embedding.isSome)).map
                      (fun j => j.job_id))
                    (s.jobs.map (fun j => j.job_id)) :=
                  (List.filter_sublist _).map _
                have hnd0 : (((s.jobs.filter (fun j => j.embedding.isSome)).filterMap
                    (scoreJob uv)).map (fun sj => sj.job_id)).Nodup :=
                  List.Nodup.sublist (hids.trans hsub) hjobs
                have h1 : ((sortDesc (fun sj : ScoredJob => sj.score)
                    ((s.jobs.filter (fun j => j.embedding.isSome)).filterMap
                      (scoreJob uv))).map (fun sj => sj.job_id)).Nodup :=
                  (List.Perm.map _ (sortDesc_perm _ _)).nodup_iff.mpr hnd0
                rw [List.map_take]
                exact List.Nodup.sublist (List.take_sublist _ _) h1

/-- Witness for C6 on `negStore` (unique user ids, no jobs) with the
people-you-may-know result from the concrete evaluation. -/
theorem ranking_limit_sorted_nodup_witness :
    ((negStore.users.map (fun u => u.id)).Nodup ∧
      (negStore.jobs.map (fun j => j.job_id)).Nodup ∧
      get_people_you_may_know negStore 1 10 = Except.ok [(2, none, -1)]) ∧
    (((get_friend_recommendations [(1, 2)] 1 10).length ≤ 10 ∧
      (get_friend_recommendations [(1, 2)] 1 10).Pairwise (fun p q => q.2 ≤ p.2) ∧
      ((get_friend_recommendations [(1, 2)] 1 10).map Prod.fst).Nodup) ∧
    (([((2 : Nat), (none : Option String), (-1 : ℝ))]).length ≤ 10 ∧
      ([((2 : Nat), (none : Option String), (-1 : ℝ))]).Pairwise
        (fun p q => q.2.2 ≤ p.2.2) ∧
      (([((2 : Nat), (none : Option String), (-1 : ℝ))]).map Prod.fst).Nodup) ∧
    ((get_job_recommendations negStore 1 10).length ≤ 10 ∧
      (get_job_recommendations negStore 1 10).Pairwise (fun p q => q.score ≤ p.score) ∧
      ((get_job_recommendations negStore 1 10).map (fun sj => sj.job_id)).Nodup)) :=
  ⟨⟨by decide, by decide, pymk_negStore_eval⟩,
    ranking_limit_sorted_nodup [(1, 2)] negStore 1 10
      [((2 : Nat), (none : Option String), (-1 : ℝ))]
      (by decide) (by decide) pymk_negStore_eval⟩
